import Mathlib

/-!
Shallow embedding of the speech-to-text streaming SDK
(`src/speech-to-text/recognize-stream.js` and
`src/speech-to-text/result-stream.js`) and proofs about its
session state machine and event aggregator.

The session adapter (`RecognizeStream`) is modelled as a pure state
machine: the mutable fields of the JS object become a `Core` record,
each entry point (`_write`, `finish`, `stop`, and the four socket
callbacks `onopen` / `onmessage` / `onerror` / `onclose`) becomes a
function from `Core` to `Core` together with the list of events it
emits, and frames handed to `socket.send` / chunks handed to `push`
are accumulated in explicit lists.  A step that would throw a
`TypeError` in JS (out-of-bounds element access, method call on a
missing socket) is modelled as `none`.

The event aggregator (`ResultStream`) is modelled as a record of its
two source lists, the `propagatedEvents` bookkeeping array, and the
list of installed `source.on(event, ...)` subscriptions (`wires`),
with one function per prototype method.
-/

namespace SpeechSDK

/-- Frames handed to `socket.send` by the adapter: the opening
`{action: "start", ...}` handshake, the `{action: "stop"}` frame, and
raw binary audio chunks (identified by an opaque `Nat`). -/
inductive OutFrame where
  | start
  | stop
  | audio (c : Nat)
deriving DecidableEq

/-- Chunks handed to `this.push`: transcript text, or `push(null)`
(end-of-output), written `eos`. -/
inductive OutChunk where
  | text (s : String)
  | eos
deriving DecidableEq

/-- One alternative of a recognition result (`{transcript: ...}`). -/
structure Alternative where
  transcript : String
deriving DecidableEq

/-- A recognition result as dispatched by `socket.onmessage`:
`final` models the truthiness of `result.final` and `alternatives`
models the `result.alternatives` field, `none` when the field is
absent (falsy) and `some l` when it is an array (always truthy in JS,
even when empty). -/
structure RecResult where
  final : Bool
  alternatives : Option (List Alternative)
deriving DecidableEq

/-- A decoded inbound JSON payload, reduced to the three fields the
dispatcher inspects: truthiness of `data.error`, the test
`data.state === 'listening'`, and `data.results` (`none` when absent,
`some rs` when an array is present). -/
structure JMsg where
  errField : Bool
  stateListening : Bool
  results? : Option (List RecResult)
deriving DecidableEq

/-- An inbound transport frame: unexpected binary data, a text frame
that fails `JSON.parse`, or a decoded JSON payload. -/
inductive Frame where
  | binary
  | badJson
  | jmsg (m : JMsg)
deriving DecidableEq

/-- Events emitted by the adapter.  `errorEv` carries the raw frame
(`err.raw`) when the error comes from `emitError`, `none` when it is
a transport error; `messageEv` carries the decoded payload;
`resultsEv` carries the whole results array; `resultEv` one result. -/
inductive Ev where
  | connect
  | listeningEv
  | errorEv (raw : Option Frame)
  | closeEv
  | messageEv (m : JMsg)
  | resultsEv (rs : List RecResult)
  | resultEv (r : RecResult)
  | stopEv
deriving DecidableEq

/-- The mutable state of one `RecognizeStream` session:
`listening` / `inited` / `finished` are the three JS flags
(`this.listening`, `this.initialized`, `this.finished`);
`socketExists` records whether `this.socket` has been created;
`socketOpen` records whether the transport has reported `onopen`
(the transport's own status, used to state temporal claims);
`stopOnConnect` records a pending `once('connect')` handler installed
by `finish`; `pendingAudio` records the chunks of deferred writes
waiting on `once('listening')`, in registration order; `sent`,
`pushed` accumulate the frames given to `socket.send` and the chunks
given to `push`; `closeCalls` counts invocations of `socket.close()`
by the adapter. -/
structure Core where
  listening : Bool
  inited : Bool
  finished : Bool
  socketExists : Bool
  socketOpen : Bool
  stopOnConnect : Bool
  pendingAudio : List Nat
  sent : List OutFrame
  pushed : List OutChunk
  closeCalls : Nat
deriving DecidableEq

/-- The state of a freshly constructed `RecognizeStream`: all three
flags false, no socket, nothing sent or pushed. -/
def init : Core :=
  ⟨false, false, false, false, false, false, [], [], [], 0⟩

/-- `RecognizeStream.prototype.initialize` (the part that matters to
session state): creates `this.socket` and sets `this.initialized`.
It sends nothing; the opening message is sent by `socket.onopen`. -/
def initSocket (c : Core) : Core :=
  { c with inited := true, socketExists := true }

/-- JS truthiness of `result.alternatives`: an absent field is falsy,
an array is truthy even when empty. -/
def altsTruthy (r : RecResult) : Bool :=
  r.alternatives.isSome

/-- The dispatcher's guard `result.final && result.alternatives`. -/
def finalGuard (r : RecResult) : Bool :=
  r.final && altsTruthy r

/-- The access `result.alternatives[0].transcript`; `none` when the
element access is out of bounds (a `TypeError` in JS). -/
def firstTranscript (r : RecResult) : Option String :=
  match r.alternatives with
  | some (a :: _) => some a.transcript
  | _ => none

/-- Output chunks contributed by one result in the dispatcher's
`forEach` body: if the guard passes, the first alternative's
transcript is pushed (crashing when the array is empty), otherwise
nothing is pushed. -/
def resultOutputs (r : RecResult) : Option (List String) :=
  if finalGuard r then (firstTranscript r).map (fun t => [t]) else some []

/-- A result is safe to process: whenever the guard passes, the first
element access is in bounds. -/
def resultOK (r : RecResult) : Bool :=
  !finalGuard r || (firstTranscript r).isSome

/-- Every result of the array is safe to process. -/
def resultsOK (rs : List RecResult) : Bool :=
  rs.all resultOK

/-- The dispatcher's `data.results.forEach` loop: per result one
singular `result` event and the pushed transcripts; `none` when some
result crashes on the out-of-bounds access. -/
def processResults : List RecResult → Option (List Ev × List String)
  | [] => some ([], [])
  | r :: rest =>
    match resultOutputs r with
    | none => none
    | some outs =>
      match processResults rest with
      | none => none
      | some (evs, os) => some (Ev.resultEv r :: evs, outs ++ os)

/-- The outputs the spec attributes to a results array: a final
result with at least one alternative contributes its first
alternative's transcript, every other result contributes nothing. -/
def claimedOutputs : List RecResult → List String
  | [] => []
  | r :: rest =>
    (if r.final then
      match r.alternatives with
      | some (a :: _) => [a.transcript]
      | _ => []
     else []) ++ claimedOutputs rest

/-- `socket.onmessage`: binary frames and JSON parse failures raise
one `error` event carrying the raw frame; otherwise a `message` event
is always raised and the payload is dispatched on `data.error`, then
`data.state === 'listening'`, then `data.results`, in source order.
A first listening report sets the flag, raises `listening`, and fires
the deferred `once('listening')` writes in order; a listening report
while the flag is already set clears it, pushes end-of-output and
calls `socket.close()`. -/
def onmessage (c : Core) : Frame → Option (Core × List Ev)
  | Frame.binary => some (c, [Ev.errorEv (some Frame.binary)])
  | Frame.badJson => some (c, [Ev.errorEv (some Frame.badJson)])
  | Frame.jmsg m =>
    if m.errField then
      some (c, [Ev.messageEv m, Ev.errorEv (some (Frame.jmsg m))])
    else if m.stateListening then
      if c.listening = false then
        some ({ c with listening := true,
                       sent := c.sent ++ c.pendingAudio.map OutFrame.audio,
                       pendingAudio := [] },
              [Ev.messageEv m, Ev.listeningEv])
      else
        some ({ c with listening := false,
                       pushed := c.pushed ++ [OutChunk.eos],
                       closeCalls := c.closeCalls + 1 },
              [Ev.messageEv m])
    else
      match m.results? with
      | some rs =>
        match processResults rs with
        | some (evs, outs) =>
          some ({ c with pushed := c.pushed ++ outs.map OutChunk.text },
                Ev.messageEv m :: Ev.resultsEv rs :: evs)
        | none => none
      | none => some (c, [Ev.messageEv m, Ev.errorEv (some (Frame.jmsg m))])

/-- `RecognizeStream.prototype._write`: when `listening` the chunk is
sent at once; otherwise the stream lazily creates the socket when not
yet initialized and defers the chunk behind `once('listening')`. -/
def write (c : Core) (ch : Nat) : Core :=
  if c.listening then
    { c with sent := c.sent ++ [OutFrame.audio ch] }
  else
    let c2 := if !c.inited then initSocket c else c
    { c2 with pendingAudio := c2.pendingAudio ++ [ch] }

/-- `RecognizeStream.prototype.finish`: a no-op when `finished` is
already set; otherwise it sets the flag and sends `{action: "stop"}`
at once when `this.socket` exists, else defers the send behind
`once('connect')`. -/
def finishCall (c : Core) : Core :=
  if c.finished then c
  else
    if c.socketExists then
      { c with finished := true, sent := c.sent ++ [OutFrame.stop] }
    else
      { c with finished := true, stopOnConnect := true }

/-- `RecognizeStream.prototype.stop`: emits `stop`; a hard stop calls
`this.socket.close()` (a `TypeError`, modelled `none`, when no socket
exists), a soft stop delegates to `finish`. -/
def stopCont (c : Core) (hard : Bool) : Option (Core × List Ev) :=
  if hard then
    if c.socketExists then
      some ({ c with closeCalls := c.closeCalls + 1 }, [Ev.stopEv])
    else none
  else some (finishCall c, [Ev.stopEv])

/-- `socket.onopen`: sends the opening message, then emits `connect`,
which fires a pending `once('connect')` handler installed by `finish`
and so sends the deferred stop frame. -/
def onopen (c : Core) : Core × List Ev :=
  if c.stopOnConnect then
    ({ c with socketOpen := true, stopOnConnect := false,
              sent := c.sent ++ [OutFrame.start] ++ [OutFrame.stop] },
     [Ev.connect])
  else
    ({ c with socketOpen := true, sent := c.sent ++ [OutFrame.start] },
     [Ev.connect])

/-- `socket.onerror`: clears `listening` and emits an error event
(with no raw frame attached). -/
def onerror (c : Core) : Core × List Ev :=
  ({ c with listening := false }, [Ev.errorEv none])

/-- `socket.onclose`: when still `listening`, clears the flag and
pushes end-of-output; always emits `close`. -/
def onclose (c : Core) : Core × List Ev :=
  if c.listening then
    ({ c with listening := false, pushed := c.pushed ++ [OutChunk.eos] },
     [Ev.closeEv])
  else (c, [Ev.closeEv])

/-- The entry points of one session: caller-side calls (`_write`,
`finish`, `stop`) and transport callbacks (`opn` = `onopen`,
`msg f` = `onmessage(f)`, `err` = `onerror`, `cls` = `onclose`). -/
inductive Act where
  | wr (ch : Nat)
  | fin
  | stp (hard : Bool)
  | opn
  | msg (f : Frame)
  | err
  | cls
deriving DecidableEq

/-- One step of the session state machine; `none` models a thrown
`TypeError`. -/
def step (c : Core) : Act → Option (Core × List Ev)
  | Act.wr ch => some (write c ch, [])
  | Act.fin => some (finishCall c, [])
  | Act.stp h => stopCont c h
  | Act.opn => some (onopen c)
  | Act.msg f => onmessage c f
  | Act.err => some (onerror c)
  | Act.cls => some (onclose c)

/-- Runs a whole trace of entry-point invocations, accumulating the
emitted events. -/
def run : Core → List Act → Option (Core × List Ev)
  | c, [] => some (c, [])
  | c, a :: t =>
    match step c a with
    | none => none
    | some (c1, evs) =>
      match run c1 t with
      | none => none
      | some (c2, evs2) => some (c2, evs ++ evs2)

/-- The transport contract: `onopen` fires only once, on a created
socket; frames and `onclose` are delivered only after open; `onerror`
only once a socket exists. -/
def actOK (c : Core) : Act → Bool
  | Act.opn => c.socketExists && !c.socketOpen
  | Act.msg _ => c.socketOpen
  | Act.err => c.socketExists
  | Act.cls => c.socketOpen
  | _ => true

/-- A trace is admissible for the transport contract: every action is
permitted in the state where it fires and no step crashes. -/
def okRun : Core → List Act → Bool
  | _, [] => true
  | c, a :: t =>
    actOK c a &&
      match step c a with
      | none => false
      | some (c1, _) => okRun c1 t

/-- Number of stop frames in a sent list. -/
def countStop : List OutFrame → Nat
  | [] => 0
  | OutFrame.stop :: t => countStop t + 1
  | _ :: t => countStop t

/-- Number of opening (start) frames in a sent list. -/
def countStart : List OutFrame → Nat
  | [] => 0
  | OutFrame.start :: t => countStart t + 1
  | _ :: t => countStart t

/-- Number of audio frames in a sent list. -/
def countAudio : List OutFrame → Nat
  | [] => 0
  | OutFrame.audio _ :: t => countAudio t + 1
  | _ :: t => countAudio t

/-- Number of end-of-output pushes in a pushed list. -/
def countEos : List OutChunk → Nat
  | [] => 0
  | OutChunk.eos :: t => countEos t + 1
  | _ :: t => countEos t

/-- Number of `connect` events in an event list. -/
def countConn : List Ev → Nat
  | [] => 0
  | Ev.connect :: t => countConn t + 1
  | _ :: t => countConn t

/-- Number of `listening` events in an event list. -/
def countLis : List Ev → Nat
  | [] => 0
  | Ev.listeningEv :: t => countLis t + 1
  | _ :: t => countLis t

/-- The listening report payload `{"state": "listening"}`. -/
def listenMsg : JMsg := ⟨false, true, none⟩

/-- An inbound frame carrying the listening report. -/
def listenFrame : Frame := Frame.jmsg listenMsg

end SpeechSDK

namespace ResultAgg

/-- The state of one `ResultStream` aggregator: the two source lists
(sources identified by an opaque `Nat`), the `propagatedEvents`
bookkeeping array (exactly as pushed by the JS code, duplicates
included), and the installed `source.on(event, emit)` subscriptions
(`wires`), in installation order and with multiplicity.  A source
raising event `e` once makes the aggregator re-raise it once per
occurrence of `(source, e)` in `wires`. -/
structure RS where
  errorSources : List Nat
  allEventSources : List Nat
  propagatedEvents : List String
  wires : List (Nat × String)
deriving DecidableEq

/-- A freshly constructed `ResultStream`. -/
def rsInit : RS := ⟨[], [], [], []⟩

/-- `ResultStream.prototype.propagateErrorsFrom`: records the source
and wires its `error` event at once exactly when an `error` listener
has already been attached (`propagatedEvents.indexOf('error') !== -1`). -/
def propagateErrorsFrom (s : RS) (src : Nat) : RS :=
  if "error" ∈ s.propagatedEvents then
    { s with errorSources := s.errorSources ++ [src],
             wires := s.wires ++ [(src, "error")] }
  else
    { s with errorSources := s.errorSources ++ [src] }

/-- `ResultStream.prototype.propagateEventsFrom`: records the source
and wires it for every entry of `propagatedEvents` — including the
duplicated entries that `propagateEvent` pushes. -/
def propagateEventsFrom (s : RS) (src : Nat) : RS :=
  { s with allEventSources := s.allEventSources ++ [src],
           wires := s.wires ++ s.propagatedEvents.map (fun e => (src, e)) }

/-- `ResultStream.prototype.propagateEvent` (the `newListener`
handler): ignores `data` and `end`; for a new event name it pushes
the name onto `propagatedEvents` twice (the source pushes at both
line 68 and line 71) and wires every appropriate source once;
error events draw on both source lists. -/
def propagateEvent (s : RS) (e : String) : RS :=
  if e = "data" ∨ e = "end" then s
  else if e ∈ s.propagatedEvents then s
  else
    { s with propagatedEvents := s.propagatedEvents ++ [e] ++ [e],
             wires := s.wires ++
               (if e = "error" then s.errorSources ++ s.allEventSources
                else s.allEventSources).map (fun src => (src, e)) }

/-- Aggregator entry points: a listener attaching for event `e`
(firing the `newListener` handler), and the two source registration
methods. -/
inductive RAct where
  | listen (e : String)
  | addErr (src : Nat)
  | addAll (src : Nat)
deriving DecidableEq

/-- One aggregator step. -/
def rstep (s : RS) : RAct → RS
  | RAct.listen e => propagateEvent s e
  | RAct.addErr n => propagateErrorsFrom s n
  | RAct.addAll n => propagateEventsFrom s n

/-- Runs a sequence of aggregator operations. -/
def runRS : RS → List RAct → RS
  | s, [] => s
  | s, a :: t => runRS (rstep s a) t

/-- Number of installed forwarding subscriptions from source `src`
for event `e` — the number of times the aggregator re-raises one
emission of `e` by `src`. -/
def wcount (src : Nat) (e : String) : List (Nat × String) → Nat
  | [] => 0
  | w :: t => (if w = (src, e) then 1 else 0) + wcount src e t

/-- Number of occurrences of a source in a source list. -/
def ncount (src : Nat) : List Nat → Nat
  | [] => 0
  | n :: t => (if n = src then 1 else 0) + ncount src t

/-- An action is a source registration (no listener attachment). -/
def isSourceAct : RAct → Bool
  | RAct.listen _ => false
  | _ => true

/-- Number of registrations of `src` as an error source in a trace. -/
def errRegCount (src : Nat) : List RAct → Nat
  | [] => 0
  | RAct.addErr n :: t => (if n = src then 1 else 0) + errRegCount src t
  | _ :: t => errRegCount src t

/-- Number of registrations of `src` as an all-event source. -/
def allRegCount (src : Nat) : List RAct → Nat
  | [] => 0
  | RAct.addAll n :: t => (if n = src then 1 else 0) + allRegCount src t
  | _ :: t => allRegCount src t

/-- The sources that `propagateEvent` would wire for event `e`. -/
def relCount (s : RS) (src : Nat) (e : String) : Nat :=
  if e = "error" then
    ncount src s.errorSources + ncount src s.allEventSources
  else ncount src s.allEventSources

end ResultAgg

namespace SpeechSDK

theorem countStop_append (l1 l2 : List OutFrame) :
    countStop (l1 ++ l2) = countStop l1 + countStop l2 := by
  induction l1 with
  | nil => simp [countStop]
  | cons a t ih => cases a <;> simp [countStop, ih] <;> omega

theorem countStart_append (l1 l2 : List OutFrame) :
    countStart (l1 ++ l2) = countStart l1 + countStart l2 := by
  induction l1 with
  | nil => simp [countStart]
  | cons a t ih => cases a <;> simp [countStart, ih] <;> omega

theorem countAudio_append (l1 l2 : List OutFrame) :
    countAudio (l1 ++ l2) = countAudio l1 + countAudio l2 := by
  induction l1 with
  | nil => simp [countAudio]
  | cons a t ih => cases a <;> simp [countAudio, ih] <;> omega

theorem countConn_append (l1 l2 : List Ev) :
    countConn (l1 ++ l2) = countConn l1 + countConn l2 := by
  induction l1 with
  | nil => simp [countConn]
  | cons a t ih => cases a <;> simp [countConn, ih] <;> omega

theorem countLis_append (l1 l2 : List Ev) :
    countLis (l1 ++ l2) = countLis l1 + countLis l2 := by
  induction l1 with
  | nil => simp [countLis]
  | cons a t ih => cases a <;> simp [countLis, ih] <;> omega

theorem countStop_audioMap (l : List Nat) :
    countStop (l.map OutFrame.audio) = 0 := by
  induction l with
  | nil => simp [countStop]
  | cons a t ih => simp [countStop, ih]

theorem countStart_audioMap (l : List Nat) :
    countStart (l.map OutFrame.audio) = 0 := by
  induction l with
  | nil => simp [countStart]
  | cons a t ih => simp [countStart, ih]

theorem resultOutputs_isSome (r : RecResult) :
    (resultOutputs r).isSome = resultOK r := by
  obtain ⟨f, alts⟩ := r
  rcases alts with _ | ⟨_ | ⟨a, as⟩⟩ <;> cases f <;>
    simp [resultOutputs, resultOK, finalGuard, altsTruthy, firstTranscript]

theorem resultOutputs_of_ok (r : RecResult) (h : resultOK r = true) :
    resultOutputs r = some (if r.final then
      match r.alternatives with
      | some (a :: _) => [a.transcript]
      | _ => []
     else []) := by
  obtain ⟨f, alts⟩ := r
  rcases alts with _ | ⟨_ | ⟨a, as⟩⟩ <;> cases f <;>
    simp_all [resultOutputs, resultOK, finalGuard, altsTruthy, firstTranscript]

theorem processResults_isSome (rs : List RecResult) :
    (processResults rs).isSome = resultsOK rs := by
  induction rs with
  | nil => simp [processResults, resultsOK]
  | cons r rest ih =>
    rw [resultsOK, List.all_cons, ← resultsOK]
    cases ho : resultOutputs r with
    | none =>
      have : resultOK r = false := by rw [← resultOutputs_isSome, ho]; rfl
      simp [processResults, ho, this]
    | some outs =>
      have : resultOK r = true := by rw [← resultOutputs_isSome, ho]; rfl
      cases hp : processResults rest with
      | none => simp [processResults, ho, hp, this, ← ih]
      | some q => simp [processResults, ho, hp, this, ← ih]

theorem processResults_of_ok (rs : List RecResult) (h : resultsOK rs = true) :
    processResults rs = some (rs.map Ev.resultEv, claimedOutputs rs) := by
  induction rs with
  | nil => simp [processResults, claimedOutputs]
  | cons r rest ih =>
    rw [resultsOK, List.all_cons] at h
    obtain ⟨h1, h2⟩ := Bool.and_eq_true_iff.mp h
    rw [← resultsOK] at h2
    rw [processResults, resultOutputs_of_ok r h1, ih h2, claimedOutputs]
    rfl

theorem processResults_counts (rs : List RecResult) (evs : List Ev)
    (outs : List String) (h : processResults rs = some (evs, outs)) :
    countConn evs = 0 ∧ countLis evs = 0 := by
  induction rs generalizing evs outs with
  | nil =>
    simp [processResults] at h
    obtain ⟨h1, h2⟩ := h
    subst h1
    exact ⟨rfl, rfl⟩
  | cons r rest ih =>
    rw [processResults] at h
    cases ho : resultOutputs r with
    | none => rw [ho] at h; simp at h
    | some o =>
      rw [ho] at h
      cases hp : processResults rest with
      | none => rw [hp] at h; simp at h
      | some q =>
        obtain ⟨evs2, outs2⟩ := q
        rw [hp] at h
        simp only [Option.some.injEq, Prod.mk.injEq] at h
        obtain ⟨h1, h2⟩ := h
        subst h1
        have := ih evs2 outs2 hp
        simp [countConn, countLis, this.1, this.2]

end SpeechSDK

namespace SpeechSDK

theorem onmessage_effects (c : Core) (f : Frame) (c1 : Core) (evs : List Ev)
    (h : onmessage c f = some (c1, evs)) :
    c1.stopOnConnect = c.stopOnConnect ∧ c1.finished = c.finished ∧
    c1.socketExists = c.socketExists ∧ c1.socketOpen = c.socketOpen ∧
    c1.inited = c.inited ∧
    countStop c1.sent = countStop c.sent ∧
    countStart c1.sent = countStart c.sent ∧
    countConn evs = 0 ∧
    (countLis evs = 0 → c.listening = false →
      c1.listening = false ∧ countAudio c1.sent = countAudio c.sent) := by
  cases f with
  | binary =>
    simp only [onmessage, Option.some.injEq, Prod.mk.injEq] at h
    obtain ⟨h1, h2⟩ := h
    subst h1; subst h2
    simp [countConn, countLis]
  | badJson =>
    simp only [onmessage, Option.some.injEq, Prod.mk.injEq] at h
    obtain ⟨h1, h2⟩ := h
    subst h1; subst h2
    simp [countConn, countLis]
  | jmsg m =>
    cases hm : m.errField with
    | true =>
      simp only [onmessage, hm, if_true, Option.some.injEq, Prod.mk.injEq] at h
      obtain ⟨h1, h2⟩ := h
      subst h1; subst h2
      simp [countConn, countLis]
    | false =>
      cases hs : m.stateListening with
      | true =>
        cases hcl : c.listening with
        | false =>
          simp only [onmessage, hm, hs, hcl, Bool.false_eq_true, if_false,
            if_true, Option.some.injEq, Prod.mk.injEq] at h
          obtain ⟨h1, h2⟩ := h
          subst h1; subst h2
          refine ⟨rfl, rfl, rfl, rfl, rfl, ?_, ?_, by simp [countConn], ?_⟩
          · simp [countStop_append, countStop_audioMap]
          · simp [countStart_append, countStart_audioMap]
          · intro hL
            simp [countLis] at hL
        | true =>
          simp only [onmessage, hm, hs, hcl, Bool.true_eq_false, Bool.false_eq_true,
            if_false, if_true, Option.some.injEq, Prod.mk.injEq] at h
          obtain ⟨h1, h2⟩ := h
          subst h1; subst h2
          refine ⟨rfl, rfl, rfl, rfl, rfl, rfl, rfl, by simp [countConn], ?_⟩
          intro _ hc
          exact ⟨rfl, rfl⟩
      | false =>
        cases hr : m.results? with
        | none =>
          simp only [onmessage, hm, hs, hr, Bool.false_eq_true, if_false,
            Option.some.injEq, Prod.mk.injEq] at h
          obtain ⟨h1, h2⟩ := h
          subst h1; subst h2
          simp [countConn, countLis]
        | some rs =>
          cases hp : processResults rs with
          | none =>
            simp only [onmessage, hm, hs, hr, hp, Bool.false_eq_true, if_false] at h
            exact Option.noConfusion h
          | some q =>
            obtain ⟨evs2, outs2⟩ := q
            simp only [onmessage, hm, hs, hr, hp, Bool.false_eq_true, if_false,
              Option.some.injEq, Prod.mk.injEq] at h
            obtain ⟨h1, h2⟩ := h
            subst h1; subst h2
            obtain ⟨hcc, hcl2⟩ := processResults_counts rs evs2 outs2 hp
            refine ⟨rfl, rfl, rfl, rfl, rfl, rfl, rfl, ?_, ?_⟩
            · simp [countConn, hcc]
            · intro _ hc
              exact ⟨hc, rfl⟩

end SpeechSDK

namespace SpeechSDK

theorem step_listening_audio (c : Core) (a : Act) (c1 : Core) (evs : List Ev)
    (h : step c a = some (c1, evs)) (hL : countLis evs = 0)
    (hc : c.listening = false) :
    c1.listening = false ∧ countAudio c1.sent = countAudio c.sent := by
  cases a with
  | wr ch =>
    simp only [step, Option.some.injEq, Prod.mk.injEq] at h
    obtain ⟨h1, h2⟩ := h
    subst h1; subst h2
    cases hi : c.inited with
    | false => simp [write, hc, initSocket, hi]
    | true => simp [write, hc, initSocket, hi]
  | fin =>
    simp only [step, Option.some.injEq, Prod.mk.injEq] at h
    obtain ⟨h1, h2⟩ := h
    subst h1; subst h2
    unfold finishCall
    split_ifs <;> simp [hc, countAudio_append, countAudio]
  | stp hd =>
    simp only [step] at h
    unfold stopCont at h
    split_ifs at h <;>
      first
        | exact Option.noConfusion h
        | · simp only [Option.some.injEq, Prod.mk.injEq] at h
            obtain ⟨ha, hb⟩ := h
            subst ha; subst hb
            first
              | exact ⟨hc, rfl⟩
              | · unfold finishCall
                  split_ifs <;> simp [hc, countAudio_append, countAudio]
  | opn =>
    simp only [step, Option.some.injEq] at h
    unfold onopen at h
    split_ifs at h <;>
      · simp only [Prod.mk.injEq] at h
        obtain ⟨ha, hb⟩ := h
        subst ha; subst hb
        exact ⟨hc, by simp [countAudio_append, countAudio]⟩
  | msg f =>
    simp only [step] at h
    exact (onmessage_effects c f c1 evs h).2.2.2.2.2.2.2.2 hL hc
  | err =>
    simp only [step, onerror, Option.some.injEq, Prod.mk.injEq] at h
    obtain ⟨ha, hb⟩ := h; subst ha; subst hb
    exact ⟨rfl, rfl⟩
  | cls =>
    simp only [step, onclose, hc, Bool.false_eq_true, if_false,
      Option.some.injEq, Prod.mk.injEq] at h
    obtain ⟨ha, hb⟩ := h; subst ha; subst hb
    exact ⟨hc, rfl⟩

theorem run_listening_audio :
    ∀ (t : List Act) (c c2 : Core) (evs : List Ev),
      run c t = some (c2, evs) → countLis evs = 0 → c.listening = false →
      c2.listening = false ∧ countAudio c2.sent = countAudio c.sent := by
  intro t
  induction t with
  | nil =>
    intro c c2 evs h _ hc
    simp only [run, Option.some.injEq, Prod.mk.injEq] at h
    obtain ⟨h1, h2⟩ := h
    subst h1
    exact ⟨hc, rfl⟩
  | cons a t ih =>
    intro c c2 evs h hL hc
    simp only [run] at h
    cases hs : step c a with
    | none =>
      simp only [hs] at h
      exact Option.noConfusion h
    | some p =>
      obtain ⟨c1, evs1⟩ := p
      simp only [hs] at h
      cases hr : run c1 t with
      | none =>
        simp only [hr] at h
        exact Option.noConfusion h
      | some q =>
        obtain ⟨cq, evq⟩ := q
        simp only [hr, Option.some.injEq, Prod.mk.injEq] at h
        obtain ⟨h1, h2⟩ := h
        subst h1; subst h2
        rw [countLis_append] at hL
        have hL1 : countLis evs1 = 0 := by omega
        have hL2 : countLis evq = 0 := by omega
        obtain ⟨ha, hb⟩ := step_listening_audio c a c1 evs1 hs hL1 hc
        obtain ⟨hd, he⟩ := ih c1 cq evq hr hL2 ha
        exact ⟨hd, by rw [he, hb]⟩

end SpeechSDK

namespace SpeechSDK

theorem step_stopBudget (c : Core) (a : Act) (c1 : Core) (evs : List Ev)
    (h : step c a = some (c1, evs))
    (hc : countStop c.sent + (if c.stopOnConnect then 1 else 0)
            = (if c.finished then 1 else 0)) :
    countStop c1.sent + (if c1.stopOnConnect then 1 else 0)
      = (if c1.finished then 1 else 0) := by
  cases a with
  | wr ch =>
    simp only [step, Option.some.injEq, Prod.mk.injEq] at h
    obtain ⟨h1, h2⟩ := h; subst h1; subst h2
    unfold write
    split_ifs <;>
      simp_all [initSocket, countStop_append, countStop]
  | fin =>
    simp only [step, Option.some.injEq, Prod.mk.injEq] at h
    obtain ⟨h1, h2⟩ := h; subst h1; subst h2
    unfold finishCall
    split_ifs at hc ⊢ <;>
      simp_all [countStop_append, countStop]
  | stp hd =>
    simp only [step] at h
    unfold stopCont at h
    split_ifs at h <;>
      first
        | exact Option.noConfusion h
        | · simp only [Option.some.injEq, Prod.mk.injEq] at h
            obtain ⟨ha, hb⟩ := h
            subst ha; subst hb
            first
              | simpa using hc
              | · unfold finishCall
                  split_ifs at hc ⊢ <;>
                    simp_all [countStop_append, countStop]
  | opn =>
    simp only [step, Option.some.injEq] at h
    unfold onopen at h
    split_ifs at h with h1 <;>
      · simp only [Prod.mk.injEq] at h
        obtain ⟨ha, hb⟩ := h
        subst ha; subst hb
        simp_all [countStop_append, countStop]
  | msg f =>
    simp only [step] at h
    obtain ⟨e1, e2, _, _, _, e6, _, _, _⟩ := onmessage_effects c f c1 evs h
    rw [e1, e2, e6]
    exact hc
  | err =>
    simp only [step, onerror, Option.some.injEq, Prod.mk.injEq] at h
    obtain ⟨ha, hb⟩ := h; subst ha; subst hb
    simpa using hc
  | cls =>
    simp only [step] at h
    unfold onclose at h
    split_ifs at h <;>
      · simp only [Option.some.injEq, Prod.mk.injEq] at h
        obtain ⟨ha, hb⟩ := h
        subst ha; subst hb
        simpa using hc

theorem run_preserve (P : Core → Prop)
    (hstep : ∀ c a c1 evs, P c → step c a = some (c1, evs) → P c1) :
    ∀ (t : List Act) (c c2 : Core) (evs : List Ev),
      P c → run c t = some (c2, evs) → P c2 := by
  intro t
  induction t with
  | nil =>
    intro c c2 evs hP h
    simp only [run, Option.some.injEq, Prod.mk.injEq] at h
    exact h.1 ▸ hP
  | cons a t ih =>
    intro c c2 evs hP h
    simp only [run] at h
    cases hs : step c a with
    | none =>
      simp only [hs] at h
      exact Option.noConfusion h
    | some p =>
      obtain ⟨c1, evs1⟩ := p
      simp only [hs] at h
      cases hr : run c1 t with
      | none =>
        simp only [hr] at h
        exact Option.noConfusion h
      | some q =>
        obtain ⟨cq, evq⟩ := q
        simp only [hr, Option.some.injEq, Prod.mk.injEq] at h
        exact h.1 ▸ ih c1 cq evq (hstep c a c1 evs1 hP hs) hr

theorem okrun_preserve (P : Core → Prop)
    (hstep : ∀ c a c1 evs,
      P c → actOK c a = true → step c a = some (c1, evs) → P c1) :
    ∀ (t : List Act) (c c2 : Core) (evs : List Ev),
      P c → okRun c t = true → run c t = some (c2, evs) → P c2 := by
  intro t
  induction t with
  | nil =>
    intro c c2 evs hP _ h
    simp only [run, Option.some.injEq, Prod.mk.injEq] at h
    exact h.1 ▸ hP
  | cons a t ih =>
    intro c c2 evs hP hok h
    simp only [run] at h
    simp only [okRun, Bool.and_eq_true] at hok
    cases hs : step c a with
    | none =>
      simp only [hs] at h
      exact Option.noConfusion h
    | some p =>
      obtain ⟨c1, evs1⟩ := p
      simp only [hs] at h
      simp only [hs] at hok
      cases hr : run c1 t with
      | none =>
        simp only [hr] at h
        exact Option.noConfusion h
      | some q =>
        obtain ⟨cq, evq⟩ := q
        simp only [hr, Option.some.injEq, Prod.mk.injEq] at h
        exact h.1 ▸ ih c1 cq evq (hstep c a c1 evs1 hP hok.1 hs) hok.2 hr

end SpeechSDK

namespace SpeechSDK

theorem step_start_conn (c : Core) (a : Act) (c1 : Core) (evs : List Ev)
    (h : step c a = some (c1, evs)) :
    countStart c1.sent = countStart c.sent + countConn evs := by
  cases a with
  | wr ch =>
    simp only [step, Option.some.injEq, Prod.mk.injEq] at h
    obtain ⟨h1, h2⟩ := h; subst h1; subst h2
    unfold write
    split_ifs <;> simp [initSocket, countStart_append, countStart, countConn]
  | fin =>
    simp only [step, Option.some.injEq, Prod.mk.injEq] at h
    obtain ⟨h1, h2⟩ := h; subst h1; subst h2
    unfold finishCall
    split_ifs <;> simp [countStart_append, countStart, countConn]
  | stp hd =>
    simp only [step] at h
    unfold stopCont at h
    split_ifs at h <;>
      first
        | exact Option.noConfusion h
        | · simp only [Option.some.injEq, Prod.mk.injEq] at h
            obtain ⟨ha, hb⟩ := h
            subst ha; subst hb
            first
              | (simp [countConn]; done)
              | · unfold finishCall
                  split_ifs <;>
                    simp [countStart_append, countStart, countConn]
  | opn =>
    simp only [step, Option.some.injEq] at h
    unfold onopen at h
    split_ifs at h <;>
      · simp only [Prod.mk.injEq] at h
        obtain ⟨ha, hb⟩ := h
        subst ha; subst hb
        simp [countStart_append, countStart, countConn]
  | msg f =>
    simp only [step] at h
    obtain ⟨_, _, _, _, _, _, e7, e8, _⟩ := onmessage_effects c f c1 evs h
    rw [e7, e8]
    omega
  | err =>
    simp only [step, onerror, Option.some.injEq, Prod.mk.injEq] at h
    obtain ⟨ha, hb⟩ := h; subst ha; subst hb
    simp [countConn]
  | cls =>
    simp only [step] at h
    unfold onclose at h
    split_ifs at h <;>
      · simp only [Option.some.injEq, Prod.mk.injEq] at h
        obtain ⟨ha, hb⟩ := h
        subst ha; subst hb
        simp [countConn]

theorem run_start_conn :
    ∀ (t : List Act) (c c2 : Core) (evs : List Ev),
      run c t = some (c2, evs) →
      countStart c2.sent = countStart c.sent + countConn evs := by
  intro t
  induction t with
  | nil =>
    intro c c2 evs h
    simp only [run, Option.some.injEq, Prod.mk.injEq] at h
    obtain ⟨h1, h2⟩ := h
    subst h1; subst h2
    simp [countConn]
  | cons a t ih =>
    intro c c2 evs h
    simp only [run] at h
    cases hs : step c a with
    | none =>
      simp only [hs] at h
      exact Option.noConfusion h
    | some p =>
      obtain ⟨c1, evs1⟩ := p
      simp only [hs] at h
      cases hr : run c1 t with
      | none =>
        simp only [hr] at h
        exact Option.noConfusion h
      | some q =>
        obtain ⟨cq, evq⟩ := q
        simp only [hr, Option.some.injEq, Prod.mk.injEq] at h
        obtain ⟨h1, h2⟩ := h
        subst h1; subst h2
        rw [countConn_append, ih c1 cq evq hr, step_start_conn c a c1 evs1 hs]
        omega

theorem step_startOpen (c : Core) (a : Act) (c1 : Core) (evs : List Ev)
    (hok : actOK c a = true) (h : step c a = some (c1, evs))
    (hc : countStart c.sent = (if c.socketOpen then 1 else 0)) :
    countStart c1.sent = (if c1.socketOpen then 1 else 0) := by
  cases a with
  | wr ch =>
    simp only [step, Option.some.injEq, Prod.mk.injEq] at h
    obtain ⟨h1, h2⟩ := h; subst h1; subst h2
    unfold write
    split_ifs <;>
      simp_all [initSocket, countStart_append, countStart]
  | fin =>
    simp only [step, Option.some.injEq, Prod.mk.injEq] at h
    obtain ⟨h1, h2⟩ := h; subst h1; subst h2
    unfold finishCall
    split_ifs <;>
      simp_all [countStart_append, countStart]
  | stp hd =>
    simp only [step] at h
    unfold stopCont at h
    split_ifs at h <;>
      first
        | exact Option.noConfusion h
        | · simp only [Option.some.injEq, Prod.mk.injEq] at h
            obtain ⟨ha, hb⟩ := h
            subst ha; subst hb
            first
              | simpa using hc
              | · unfold finishCall
                  split_ifs <;>
                    simp_all [countStart_append, countStart]
  | opn =>
    simp only [actOK, Bool.and_eq_true, Bool.not_eq_true'] at hok
    simp only [step, Option.some.injEq] at h
    unfold onopen at h
    split_ifs at h <;>
      · simp only [Prod.mk.injEq] at h
        obtain ⟨ha, hb⟩ := h
        subst ha; subst hb
        simp_all [countStart_append, countStart]
  | msg f =>
    simp only [step] at h
    obtain ⟨_, _, _, e4, _, _, e7, _, _⟩ := onmessage_effects c f c1 evs h
    rw [e7, e4]
    exact hc
  | err =>
    simp only [step, onerror, Option.some.injEq, Prod.mk.injEq] at h
    obtain ⟨ha, hb⟩ := h; subst ha; subst hb
    simpa using hc
  | cls =>
    simp only [step] at h
    unfold onclose at h
    split_ifs at h <;>
      · simp only [Option.some.injEq, Prod.mk.injEq] at h
        obtain ⟨ha, hb⟩ := h
        subst ha; subst hb
        simpa using hc

end SpeechSDK

namespace ResultAgg

theorem wcount_append (src : Nat) (e : String) (l1 l2 : List (Nat × String)) :
    wcount src e (l1 ++ l2) = wcount src e l1 + wcount src e l2 := by
  induction l1 with
  | nil => simp [wcount]
  | cons a t ih => simp [wcount, ih]; omega

theorem ncount_append (src : Nat) (l1 l2 : List Nat) :
    ncount src (l1 ++ l2) = ncount src l1 + ncount src l2 := by
  induction l1 with
  | nil => simp [ncount]
  | cons a t ih => simp [ncount, ih]; omega

theorem wcount_map_same (src : Nat) (e : String) (l : List Nat) :
    wcount src e (l.map (fun n => (n, e))) = ncount src l := by
  induction l with
  | nil => rfl
  | cons a t ih =>
    by_cases h : a = src <;>
      simp [wcount, ncount, Prod.mk.injEq, h, ih]

theorem wcount_map_other (src : Nat) (e e2 : String) (hne : e ≠ e2)
    (l : List Nat) :
    wcount src e (l.map (fun n => (n, e2))) = 0 := by
  induction l with
  | nil => rfl
  | cons a t ih =>
    simp [wcount, Prod.mk.injEq, ih, Ne.symm hne]

theorem wcount_map_pe (src n : Nat) (e : String) (pe : List String)
    (h : e ∉ pe) :
    wcount src e (pe.map (fun x => (n, x))) = 0 := by
  induction pe with
  | nil => rfl
  | cons a t ih =>
    simp only [List.mem_cons, not_or] at h
    simp [wcount, Prod.mk.injEq, ih h.2, Ne.symm h.1]

theorem runRS_append (s : RS) (t1 t2 : List RAct) :
    runRS s (t1 ++ t2) = runRS (runRS s t1) t2 := by
  induction t1 generalizing s with
  | nil => rfl
  | cons a t ih => simp [runRS, ih]

theorem runRS_sources (src : Nat) :
    ∀ (acts : List RAct) (s : RS), acts.all isSourceAct = true →
      s.propagatedEvents = [] →
      (runRS s acts).propagatedEvents = [] ∧
      (runRS s acts).wires = s.wires ∧
      ncount src (runRS s acts).errorSources
        = ncount src s.errorSources + errRegCount src acts ∧
      ncount src (runRS s acts).allEventSources
        = ncount src s.allEventSources + allRegCount src acts := by
  intro acts
  induction acts with
  | nil =>
    intro s _ hpe
    simp [runRS, errRegCount, allRegCount, hpe]
  | cons a t ih =>
    intro s hall hpe
    rw [List.all_cons] at hall
    obtain ⟨ha, ht⟩ := Bool.and_eq_true_iff.mp hall
    cases a with
    | listen e => simp [isSourceAct] at ha
    | addErr n =>
      have hstep : rstep s (RAct.addErr n) =
          { s with errorSources := s.errorSources ++ [n] } := by
        simp [rstep, propagateErrorsFrom, hpe]
      simp only [runRS, hstep]
      obtain ⟨p1, p2, p3, p4⟩ :=
        ih { s with errorSources := s.errorSources ++ [n] } ht (by simpa using hpe)
      refine ⟨p1, p2, ?_, ?_⟩
      · rw [p3]
        simp only [ncount_append]
        simp [ncount, errRegCount]
        omega
      · rw [p4]
        simp [allRegCount]
    | addAll n =>
      have hstep : rstep s (RAct.addAll n) =
          { s with allEventSources := s.allEventSources ++ [n] } := by
        simp [rstep, propagateEventsFrom, hpe]
      simp only [runRS, hstep]
      obtain ⟨p1, p2, p3, p4⟩ :=
        ih { s with allEventSources := s.allEventSources ++ [n] } ht (by simpa using hpe)
      refine ⟨p1, p2, ?_, ?_⟩
      · rw [p3]
        simp [errRegCount]
      · rw [p4]
        simp only [ncount_append]
        simp [ncount, allRegCount]
        omega

end ResultAgg

namespace ResultAgg

theorem wcount_map_rel (s : RS) (src : Nat) (e : String) :
    wcount src e ((if e = "error" then s.errorSources ++ s.allEventSources
                   else s.allEventSources).map (fun n => (n, e)))
      = relCount s src e := by
  by_cases he : e = "error" <;>
    simp [he, relCount, wcount_map_same, ncount_append, wcount_append]

theorem runRS_listen (src : Nat) (e : String) :
    ∀ (ls : List String) (s : RS),
      wcount src e s.wires
        = (if e ∈ s.propagatedEvents then relCount s src e else 0) →
      wcount src e (runRS s (ls.map RAct.listen)).wires
          = (if e ∈ (runRS s (ls.map RAct.listen)).propagatedEvents
             then relCount s src e else 0) ∧
      (e ∈ (runRS s (ls.map RAct.listen)).propagatedEvents ↔
        (e ∈ s.propagatedEvents ∨ (e ∈ ls ∧ ¬(e = "data" ∨ e = "end")))) := by
  intro ls
  induction ls with
  | nil =>
    intro s hinv
    simp only [List.map_nil, runRS]
    exact ⟨hinv, by simp⟩
  | cons e2 rest ih =>
    intro s hinv
    simp only [List.map_cons, runRS, rstep]
    by_cases hde : e2 = "data" ∨ e2 = "end"
    · have hs2 : propagateEvent s e2 = s := by
        simp [propagateEvent, hde]
      simp only [hs2]
      obtain ⟨q1, q2⟩ := ih s hinv
      refine ⟨q1, ?_⟩
      rw [q2]
      constructor
      · rintro (h | h)
        · exact Or.inl h
        · exact Or.inr ⟨List.mem_cons_of_mem _ h.1, h.2⟩
      · rintro (h | ⟨hm, hp⟩)
        · exact Or.inl h
        · rcases List.mem_cons.mp hm with h1 | h1
          · subst h1
            exact absurd hde hp
          · exact Or.inr ⟨h1, hp⟩
    · by_cases hmem : e2 ∈ s.propagatedEvents
      · have hs2 : propagateEvent s e2 = s := by
          simp [propagateEvent, hde, hmem]
        simp only [hs2]
        obtain ⟨q1, q2⟩ := ih s hinv
        refine ⟨q1, ?_⟩
        rw [q2]
        constructor
        · rintro (h | h)
          · exact Or.inl h
          · exact Or.inr ⟨List.mem_cons_of_mem _ h.1, h.2⟩
        · rintro (h | ⟨hm, hp⟩)
          · exact Or.inl h
          · rcases List.mem_cons.mp hm with h1 | h1
            · subst h1
              exact Or.inl hmem
            · exact Or.inr ⟨h1, hp⟩
      · have hs2 : propagateEvent s e2 =
            { s with propagatedEvents := s.propagatedEvents ++ [e2] ++ [e2],
                     wires := s.wires ++
                       (if e2 = "error" then s.errorSources ++ s.allEventSources
                        else s.allEventSources).map (fun n => (n, e2)) } := by
          simp [propagateEvent, hde, hmem]
        simp only [hs2]
        by_cases heq : e = e2
        · subst heq
          have hnotin : e ∉ s.propagatedEvents := hmem
          have h0 : wcount src e s.wires = 0 := by
            rw [hinv, if_neg hnotin]
          have hinv2 : wcount src e
              ({ s with propagatedEvents := s.propagatedEvents ++ [e] ++ [e],
                        wires := s.wires ++
                          (if e = "error" then s.errorSources ++ s.allEventSources
                           else s.allEventSources).map (fun n => (n, e)) } : RS).wires
              = (if e ∈ ({ s with
                    propagatedEvents := s.propagatedEvents ++ [e] ++ [e],
                    wires := s.wires ++
                      (if e = "error" then s.errorSources ++ s.allEventSources
                       else s.allEventSources).map (fun n => (n, e)) } : RS).propagatedEvents
                 then relCount s src e else 0) := by
            simp only [wcount_append, h0, wcount_map_rel]
            rw [if_pos (by simp)]
            omega
          obtain ⟨q1, q2⟩ := ih _ hinv2
          refine ⟨q1, ?_⟩
          rw [q2]
          constructor
          · intro _
            exact Or.inr ⟨List.mem_cons_self _ _, hde⟩
          · intro _
            exact Or.inl (by simp)
        · have hinv2 : wcount src e
              ({ s with propagatedEvents := s.propagatedEvents ++ [e2] ++ [e2],
                        wires := s.wires ++
                          (if e2 = "error" then s.errorSources ++ s.allEventSources
                           else s.allEventSources).map (fun n => (n, e2)) } : RS).wires
              = (if e ∈ ({ s with
                    propagatedEvents := s.propagatedEvents ++ [e2] ++ [e2],
                    wires := s.wires ++
                      (if e2 = "error" then s.errorSources ++ s.allEventSources
                       else s.allEventSources).map (fun n => (n, e2)) } : RS).propagatedEvents
                 then relCount s src e else 0) := by
            simp only [wcount_append, wcount_map_other src e e2 heq]
            have hiff : (e ∈ s.propagatedEvents ++ [e2] ++ [e2]) ↔
                e ∈ s.propagatedEvents := by
              simp [heq]
            rw [hinv]
            by_cases hin : e ∈ s.propagatedEvents
            · rw [if_pos hin, if_pos (hiff.mpr hin)]
              omega
            · rw [if_neg hin, if_neg (fun hx => hin (hiff.mp hx))]
          obtain ⟨q1, q2⟩ := ih _ hinv2
          refine ⟨q1, ?_⟩
          rw [q2]
          have hiff : (e ∈ s.propagatedEvents ++ [e2] ++ [e2]) ↔
              e ∈ s.propagatedEvents := by
            simp [heq]
          constructor
          · rintro (h | h)
            · exact Or.inl (hiff.mp h)
            · exact Or.inr ⟨List.mem_cons_of_mem _ h.1, h.2⟩
          · rintro (h | ⟨hm, hp⟩)
            · exact Or.inl (hiff.mpr h)
            · rcases List.mem_cons.mp hm with h1 | h1
              · exact absurd h1 heq
              · exact Or.inr ⟨h1, hp⟩

end ResultAgg

namespace ResultAgg

theorem runRS_no_error_wire (src : Nat) :
    ∀ (acts : List RAct) (s : RS),
      acts.all (fun a => !(a = RAct.listen "error")) = true →
      "error" ∉ s.propagatedEvents →
      wcount src "error" s.wires = 0 →
      "error" ∉ (runRS s acts).propagatedEvents ∧
      wcount src "error" (runRS s acts).wires = 0 := by
  intro acts
  induction acts with
  | nil =>
    intro s _ hpe hw
    exact ⟨hpe, hw⟩
  | cons a t ih =>
    intro s hall hpe hw
    rw [List.all_cons] at hall
    obtain ⟨ha, ht⟩ := Bool.and_eq_true_iff.mp hall
    simp only [runRS]
    cases a with
    | listen e =>
      have hne : e ≠ "error" := by
        intro hcontra
        subst hcontra
        simp at ha
      by_cases hde : e = "data" ∨ e = "end"
      · have hs2 : rstep s (RAct.listen e) = s := by
          simp [rstep, propagateEvent, hde]
        simp only [hs2]
        exact ih s ht hpe hw
      · by_cases hmem : e ∈ s.propagatedEvents
        · have hs2 : rstep s (RAct.listen e) = s := by
            simp [rstep, propagateEvent, hde, hmem]
          simp only [hs2]
          exact ih s ht hpe hw
        · have hs2 : rstep s (RAct.listen e) =
              { s with propagatedEvents := s.propagatedEvents ++ [e] ++ [e],
                       wires := s.wires ++
                         (if e = "error" then s.errorSources ++ s.allEventSources
                          else s.allEventSources).map (fun n => (n, e)) } := by
            simp [rstep, propagateEvent, hde, hmem]
          simp only [hs2]
          apply ih
          · exact ht
          · intro hx
            simp only [List.mem_append, List.mem_singleton] at hx
            rcases hx with (hx | hx) | hx
            · exact hpe hx
            · exact hne hx.symm
            · exact hne hx.symm
          · rw [wcount_append, hw, wcount_map_other src _ e (Ne.symm hne)]
    | addErr n =>
      have hs2 : rstep s (RAct.addErr n) =
          { s with errorSources := s.errorSources ++ [n] } := by
        simp [rstep, propagateErrorsFrom, hpe]
      simp only [hs2]
      exact ih _ ht hpe hw
    | addAll n =>
      have hs2 : rstep s (RAct.addAll n) =
          { s with allEventSources := s.allEventSources ++ [n],
                   wires := s.wires ++
                     s.propagatedEvents.map (fun x => (n, x)) } := by
        simp [rstep, propagateEventsFrom]
      simp only [hs2]
      refine ih _ ht ?_ ?_
      · exact hpe
      · show wcount src "error"
          (s.wires ++ s.propagatedEvents.map (fun x => (n, x))) = 0
        rw [wcount_append, hw, wcount_map_pe src n _ _ hpe]

end ResultAgg

namespace SpeechSDK

/-- Claim C1: no audio chunk is handed to the transport before the
adapter has observed the server's first listening signal.  A write
performed while the `listening` flag is false hands nothing to the
transport, queues the chunk, and (lazily) creates the socket when not
yet initialized; over any run of the session that emits no `listening`
event, no audio frame is ever sent; and when a listening report
arrives the queued chunks are sent, in order, at that moment. -/
theorem claim1_audio_only_after_listening :
    (∀ (c : Core) (ch : Nat), c.listening = false →
      (write c ch).sent = c.sent ∧
      (write c ch).pendingAudio = c.pendingAudio ++ [ch] ∧
      (write c ch).inited = true) ∧
    (∀ (t : List Act) (c2 : Core) (evs : List Ev),
      run init t = some (c2, evs) → countLis evs = 0 →
      countAudio c2.sent = 0) ∧
    (∀ c : Core, c.listening = false →
      onmessage c listenFrame =
        some ({ c with listening := true,
                       sent := c.sent ++ c.pendingAudio.map OutFrame.audio,
                       pendingAudio := [] },
              [Ev.messageEv listenMsg, Ev.listeningEv])) := by
  refine ⟨?_, ?_, ?_⟩
  · intro c ch hc
    cases hi : c.inited with
    | false => simp [write, hc, initSocket, hi]
    | true => simp [write, hc, initSocket, hi]
  · intro t c2 evs h hL
    have hmain := run_listening_audio t init c2 evs h hL rfl
    have : countAudio init.sent = 0 := rfl
    omega
  · intro c hc
    simp [onmessage, listenFrame, listenMsg, hc]

/-- Claim C1 witness: the deferral at a concrete write, a concrete
run with no listening event and no audio sent, and the flush on the
first listening report, all at `init`. -/
theorem claim1_witness :
    (init.listening = false ∧
      (write init 5).sent = init.sent ∧
      (write init 5).pendingAudio = init.pendingAudio ++ [5] ∧
      (write init 5).inited = true) ∧
    (run init [Act.wr 5, Act.opn] =
        some (⟨false, true, false, true, true, false, [5],
          [OutFrame.start], [], 0⟩, [Ev.connect]) ∧
      countLis [Ev.connect] = 0 ∧
      countAudio (⟨false, true, false, true, true, false, [5],
        [OutFrame.start], [], 0⟩ : Core).sent = 0) ∧
    (init.listening = false ∧
      onmessage init listenFrame =
        some ({ init with listening := true,
                          sent := init.sent ++ init.pendingAudio.map OutFrame.audio,
                          pendingAudio := [] },
              [Ev.messageEv listenMsg, Ev.listeningEv])) :=
  ⟨⟨rfl, claim1_audio_only_after_listening.1 init 5 rfl⟩,
   ⟨by decide, rfl,
     claim1_audio_only_after_listening.2.1 [Act.wr 5, Act.opn]
       ⟨false, true, false, true, true, false, [5], [OutFrame.start], [], 0⟩
       [Ev.connect] (by decide) rfl⟩,
   ⟨rfl, claim1_audio_only_after_listening.2.2 init rfl⟩⟩

/-- Claim C2: over every session run, whatever combination of
end-of-input, explicit graceful stops and repeated finish calls the
trace contains, the `{action: "stop"}` frame is handed to the
transport at most once; the `finished` flag guards later triggers. -/
theorem claim2_stop_at_most_once (t : List Act) (c2 : Core) (evs : List Ev)
    (h : run init t = some (c2, evs)) :
    countStop c2.sent ≤ 1 := by
  have hinv := run_preserve
    (fun c => countStop c.sent + (if c.stopOnConnect then 1 else 0)
      = (if c.finished then 1 else 0))
    (fun c a c1 evs1 hP hs => step_stopBudget c a c1 evs1 hs hP)
    t init c2 evs (by simp [init, countStop]) h
  simp only [] at hinv
  split_ifs at hinv <;> omega

/-- Claim C2 witness: a run with end-of-input, a repeated finish and
a graceful stop sends exactly one stop frame. -/
theorem claim2_witness :
    run init [Act.wr 0, Act.fin, Act.fin, Act.stp false] =
      some (⟨false, true, true, true, false, false, [0],
        [OutFrame.stop], [], 0⟩, [Ev.stopEv]) ∧
    countStop (⟨false, true, true, true, false, false, [0],
      [OutFrame.stop], [], 0⟩ : Core).sent ≤ 1 :=
  ⟨by decide,
   claim2_stop_at_most_once [Act.wr 0, Act.fin, Act.fin, Act.stp false]
     ⟨false, true, true, true, false, false, [0], [OutFrame.stop], [], 0⟩
     [Ev.stopEv] (by decide)⟩

/-- Claim C3: over every run admissible for the transport contract,
the opening handshake frame is sent exactly once when the transport
has reported open and never before; the `connect` event count equals
the handshake count; and the `onopen` step sends the handshake and
raises `connect` in that same step. -/
theorem claim3_handshake_once_after_open :
    (∀ (t : List Act) (c2 : Core) (evs : List Ev),
      okRun init t = true → run init t = some (c2, evs) →
      countStart c2.sent = (if c2.socketOpen then 1 else 0) ∧
      countConn evs = countStart c2.sent) ∧
    (∀ (c c1 : Core) (evs1 : List Ev), step c Act.opn = some (c1, evs1) →
      evs1 = [Ev.connect] ∧
      countStart c1.sent = countStart c.sent + 1 ∧
      c1.socketOpen = true) := by
  constructor
  · intro t c2 evs hok h
    have h1 : countStart c2.sent = (if c2.socketOpen then 1 else 0) :=
      okrun_preserve (fun c => countStart c.sent = (if c.socketOpen then 1 else 0))
        (fun c a c1 evs1 hP ho hs => step_startOpen c a c1 evs1 ho hs hP)
        t init c2 evs (by simp [init, countStart]) hok h
    have h2 := run_start_conn t init c2 evs h
    have h3 : countStart init.sent = 0 := rfl
    exact ⟨h1, by omega⟩
  · intro c c1 evs1 h
    simp only [step, Option.some.injEq] at h
    unfold onopen at h
    split_ifs at h <;>
      · simp only [Prod.mk.injEq] at h
        obtain ⟨ha, hb⟩ := h
        subst ha; subst hb
        refine ⟨rfl, ?_, rfl⟩
        simp [countStart_append, countStart]

/-- Claim C3 witness: a valid run in which the transport opens after
a first deferred write sends the handshake exactly once, with one
matching connect event, and the open step itself. -/
theorem claim3_witness :
    (okRun init [Act.wr 0, Act.opn] = true ∧
      run init [Act.wr 0, Act.opn] =
        some (⟨false, true, false, true, true, false, [0],
          [OutFrame.start], [], 0⟩, [Ev.connect]) ∧
      countStart (⟨false, true, false, true, true, false, [0],
          [OutFrame.start], [], 0⟩ : Core).sent
        = (if (⟨false, true, false, true, true, false, [0],
            [OutFrame.start], [], 0⟩ : Core).socketOpen then 1 else 0) ∧
      countConn [Ev.connect]
        = countStart (⟨false, true, false, true, true, false, [0],
            [OutFrame.start], [], 0⟩ : Core).sent) ∧
    (step init Act.opn =
        some (⟨false, false, false, false, true, false, [],
          [OutFrame.start], [], 0⟩, [Ev.connect]) ∧
      ([Ev.connect] : List Ev) = [Ev.connect] ∧
      countStart (⟨false, false, false, false, true, false, [],
          [OutFrame.start], [], 0⟩ : Core).sent = countStart init.sent + 1 ∧
      (⟨false, false, false, false, true, false, [],
          [OutFrame.start], [], 0⟩ : Core).socketOpen = true) :=
  ⟨⟨by decide, by decide,
     claim3_handshake_once_after_open.1 [Act.wr 0, Act.opn]
       ⟨false, true, false, true, true, false, [0], [OutFrame.start], [], 0⟩
       [Ev.connect] (by decide) (by decide)⟩,
   ⟨by decide,
     claim3_handshake_once_after_open.2 init
       ⟨false, false, false, false, true, false, [], [OutFrame.start], [], 0⟩
       [Ev.connect] (by decide)⟩⟩

end SpeechSDK

namespace SpeechSDK

/-- Claim C4 counterexample.  The claim states that `listening`
toggles true-to-false exactly once, namely on a listening report
received after the stop frame was sent, and that the behaviour is
idempotent when a further listening report arrives after that
transition.  Both parts fail on the code.  First trace: after the
toggle (stop sent, second listening report processed), a third
listening report is not a no-op — it sets `listening` back to true
and emits a second `listening` event.  Second trace: the toggle also
fires on a second listening report when no stop frame was ever sent
(the dispatcher never consults the `finished` flag), so the
"after the stop message" qualification is wrong as well.  Both traces
are admissible for the transport contract. -/
theorem claim4_cex :
    (okRun init [Act.wr 0, Act.opn, Act.msg listenFrame, Act.fin,
        Act.msg listenFrame, Act.msg listenFrame] = true ∧
      (run init [Act.wr 0, Act.opn, Act.msg listenFrame, Act.fin,
          Act.msg listenFrame, Act.msg listenFrame]).map
        (fun p => (p.1.listening, countLis p.2, countEos p.1.pushed,
          p.1.closeCalls))
        = some (true, 2, 1, 1)) ∧
    (okRun init [Act.wr 0, Act.opn, Act.msg listenFrame,
        Act.msg listenFrame] = true ∧
      (run init [Act.wr 0, Act.opn, Act.msg listenFrame,
          Act.msg listenFrame]).map
        (fun p => (countStop p.1.sent, countEos p.1.pushed, p.1.listening))
        = some (0, 1, false)) :=
  ⟨⟨by decide, by decide⟩, ⟨by decide, by decide⟩⟩

/-- Claim C4 (amended): the dispatcher toggles `listening`
true-to-false on any listening report received while the flag is
already true — whether or not a stop frame was sent; at each such
transition it pushes end-of-output exactly once and requests one
transport close.  A further listening report after the transition
does not push end-of-output or close again, but it re-marks the
session as listening and re-emits the `listening` event (so the
transition is not idempotent for the flag). -/
theorem claim4_listening_toggle_amended :
    (∀ c : Core, c.listening = true →
      onmessage c listenFrame =
        some ({ c with listening := false,
                       pushed := c.pushed ++ [OutChunk.eos],
                       closeCalls := c.closeCalls + 1 },
              [Ev.messageEv listenMsg])) ∧
    (∀ c : Core, c.listening = false →
      onmessage c listenFrame =
        some ({ c with listening := true,
                       sent := c.sent ++ c.pendingAudio.map OutFrame.audio,
                       pendingAudio := [] },
              [Ev.messageEv listenMsg, Ev.listeningEv])) := by
  constructor
  · intro c hc
    simp [onmessage, listenFrame, listenMsg, hc]
  · intro c hc
    simp [onmessage, listenFrame, listenMsg, hc]

/-- Claim C4 witness: the toggle at a concrete listening state, and
the non-idempotent re-listen at a concrete not-listening state. -/
theorem claim4_witness :
    ((⟨true, true, true, true, true, false, [], [], [], 0⟩ : Core).listening
        = true ∧
      onmessage ⟨true, true, true, true, true, false, [], [], [], 0⟩ listenFrame =
        some ({ (⟨true, true, true, true, true, false, [], [], [], 0⟩ : Core) with
                  listening := false,
                  pushed := [] ++ [OutChunk.eos],
                  closeCalls := 0 + 1 },
              [Ev.messageEv listenMsg])) ∧
    (init.listening = false ∧
      onmessage init listenFrame =
        some ({ init with listening := true,
                          sent := init.sent ++ init.pendingAudio.map OutFrame.audio,
                          pendingAudio := [] },
              [Ev.messageEv listenMsg, Ev.listeningEv])) :=
  ⟨⟨rfl, claim4_listening_toggle_amended.1
      ⟨true, true, true, true, true, false, [], [], [], 0⟩ rfl⟩,
   ⟨rfl, claim4_listening_toggle_amended.2 init rfl⟩⟩

/-- Claim C5: an inbound frame carrying a results array raises one
plural `results` event with the whole array, then one singular
`result` event per result in order; a final result with at least one
alternative contributes exactly one output chunk, its first
alternative's transcript, and every other result contributes no
output chunk.  (The hypothesis rules out the out-of-bounds crash of
claim C10: every final result with a present alternatives array has
at least one alternative.) -/
theorem claim5_results_dispatch (c : Core) (rs : List RecResult)
    (h : resultsOK rs = true) :
    onmessage c (Frame.jmsg ⟨false, false, some rs⟩) =
      some ({ c with pushed := c.pushed ++ (claimedOutputs rs).map OutChunk.text },
            Ev.messageEv ⟨false, false, some rs⟩ :: Ev.resultsEv rs ::
              rs.map Ev.resultEv) := by
  simp [onmessage, processResults_of_ok rs h]

/-- Claim C5 witness: the spec's own example — a final result with
alternative transcript "hello world" produces exactly that one output
chunk; a non-final result produces a `result` event and no chunk. -/
theorem claim5_witness :
    resultsOK [⟨true, some [⟨"hello world"⟩]⟩, ⟨false, some []⟩] = true ∧
    onmessage init (Frame.jmsg ⟨false, false,
        some [⟨true, some [⟨"hello world"⟩]⟩, ⟨false, some []⟩]⟩) =
      some ({ init with pushed := init.pushed ++
            (claimedOutputs [⟨true, some [⟨"hello world"⟩]⟩,
              ⟨false, some []⟩]).map OutChunk.text },
        Ev.messageEv ⟨false, false,
            some [⟨true, some [⟨"hello world"⟩]⟩, ⟨false, some []⟩]⟩ ::
          Ev.resultsEv [⟨true, some [⟨"hello world"⟩]⟩, ⟨false, some []⟩] ::
            ([⟨true, some [⟨"hello world"⟩]⟩, ⟨false, some []⟩] :
              List RecResult).map Ev.resultEv) :=
  ⟨by decide,
   claim5_results_dispatch init
     [⟨true, some [⟨"hello world"⟩]⟩, ⟨false, some []⟩] (by decide)⟩

/-- Claim C6: an inbound text frame whose contents fail JSON parsing
raises exactly one `error` event carrying the raw frame and changes
nothing else: the session flags, the deferred-write queue, the frames
sent, the chunks pushed and the close count are all untouched, so the
session is not closed and, the state being identical, every later
frame is dispatched exactly as it would have been. -/
theorem claim6_bad_json_nonfatal (c : Core) :
    onmessage c Frame.badJson = some (c, [Ev.errorEv (some Frame.badJson)]) :=
  rfl

end SpeechSDK

namespace SpeechSDK

/-- Claim C7 counterexample.  The claim states that the first finish
call sends the stop frame immediately only when the transport has
reported open, and otherwise defers the send until the `connect`
event.  In the code the guard is `if (self.socket)` — mere existence
of the socket object — not transport openness.  Concretely: a first
write lazily creates the socket (still connecting), then `finish`
fires; the stop frame is sent at once although the transport never
reported open and no `connect` event was ever raised. -/
theorem claim7_cex :
    run init [Act.wr 0, Act.fin] =
      some (⟨false, true, true, true, false, false, [0],
        [OutFrame.stop], [], 0⟩, []) ∧
    (⟨false, true, true, true, false, false, [0],
      [OutFrame.stop], [], 0⟩ : Core).socketOpen = false ∧
    countStop [OutFrame.stop] = 1 :=
  ⟨by decide, rfl, rfl⟩

/-- Claim C7 (amended): the first finish call sends the stop frame
immediately whenever the socket object exists (initialization has
run), even if the transport has not yet reported open; only when no
socket exists at all is the send deferred behind `once('connect')`,
and the `onopen` handler then sends it exactly once, right after the
handshake; a repeated finish call is a no-op. -/
theorem claim7_finish_amended :
    (∀ c : Core, c.finished = false → c.socketExists = true →
      finishCall c =
        { c with finished := true, sent := c.sent ++ [OutFrame.stop] }) ∧
    (∀ c : Core, c.finished = false → c.socketExists = false →
      finishCall c = { c with finished := true, stopOnConnect := true }) ∧
    (∀ c : Core, c.stopOnConnect = true →
      onopen c =
        ({ c with socketOpen := true, stopOnConnect := false,
                  sent := c.sent ++ [OutFrame.start] ++ [OutFrame.stop] },
         [Ev.connect])) ∧
    (∀ c : Core, c.finished = true → finishCall c = c) := by
  refine ⟨?_, ?_, ?_, ?_⟩
  · intro c h1 h2
    simp [finishCall, h1, h2]
  · intro c h1 h2
    simp [finishCall, h1, h2]
  · intro c h1
    simp [onopen, h1]
  · intro c h1
    simp [finishCall, h1]

/-- Claim C7 witness: each branch of the amended claim at a concrete
state — immediate send with an unopened socket, deferral without a
socket, the deferred send at open, and the no-op repeat. -/
theorem claim7_witness :
    ((⟨false, true, false, true, false, false, [], [], [], 0⟩ : Core).finished
        = false ∧
      (⟨false, true, false, true, false, false, [], [], [], 0⟩ : Core).socketExists
        = true ∧
      finishCall ⟨false, true, false, true, false, false, [], [], [], 0⟩ =
        { (⟨false, true, false, true, false, false, [], [], [], 0⟩ : Core) with
            finished := true, sent := [] ++ [OutFrame.stop] }) ∧
    (init.finished = false ∧ init.socketExists = false ∧
      finishCall init = { init with finished := true, stopOnConnect := true }) ∧
    ((⟨false, false, true, false, false, true, [], [], [], 0⟩ : Core).stopOnConnect
        = true ∧
      onopen ⟨false, false, true, false, false, true, [], [], [], 0⟩ =
        ({ (⟨false, false, true, false, false, true, [], [], [], 0⟩ : Core) with
             socketOpen := true, stopOnConnect := false,
             sent := [] ++ [OutFrame.start] ++ [OutFrame.stop] },
         [Ev.connect])) ∧
    ((⟨false, true, true, true, true, false, [], [OutFrame.stop], [], 0⟩ : Core).finished
        = true ∧
      finishCall ⟨false, true, true, true, true, false, [], [OutFrame.stop], [], 0⟩ =
        ⟨false, true, true, true, true, false, [], [OutFrame.stop], [], 0⟩) :=
  ⟨⟨rfl, rfl, claim7_finish_amended.1
      ⟨false, true, false, true, false, false, [], [], [], 0⟩ rfl rfl⟩,
   ⟨rfl, rfl, claim7_finish_amended.2.1 init rfl rfl⟩,
   ⟨rfl, claim7_finish_amended.2.2.1
      ⟨false, false, true, false, false, true, [], [], [], 0⟩ rfl⟩,
   ⟨rfl, claim7_finish_amended.2.2.2
      ⟨false, true, true, true, true, false, [], [OutFrame.stop], [], 0⟩ rfl⟩⟩

/-- Claim C10: the dispatcher's guard on a result checks only the
truthiness of `alternatives` (in JS an array is truthy even when
empty, an absent field is falsy), so a final result with an empty
alternatives array passes the guard and the subsequent
`alternatives[0].transcript` access is out of bounds; processing a
results array is crash-free exactly when every result whose guard
passes has a non-empty alternatives sequence. -/
theorem claim10_guard_truthiness :
    (∀ (f : Bool) (alts : List Alternative),
      finalGuard ⟨f, some alts⟩ = f) ∧
    finalGuard ⟨true, some []⟩ = true ∧
    resultOutputs ⟨true, some []⟩ = none ∧
    processResults [⟨true, some []⟩] = none ∧
    (∀ rs : List RecResult, (processResults rs).isSome = resultsOK rs) := by
  refine ⟨?_, rfl, rfl, rfl, processResults_isSome⟩
  intro f alts
  simp [finalGuard, altsTruthy]

end SpeechSDK

namespace ResultAgg

/-- Claim C8 counterexample.  The claim states that for every source
and event name the forwarding subscription is installed at most once,
whatever the interleaving of listener attachments and source
registrations, so one emission is re-raised exactly once.  It fails:
`propagateEvent` pushes the event name onto `propagatedEvents` twice
(source lines 68 and 71), so a source registered through
`propagateEventsFrom` after a `close` listener has attached is wired
twice for `close`, and one `close` emitted by that source is
re-raised twice on the aggregator. -/
theorem claim8_cex :
    wcount 7 "close"
        (runRS rsInit [RAct.listen "close", RAct.addAll 7]).wires = 2 ∧
    ¬ wcount 7 "close"
        (runRS rsInit [RAct.listen "close", RAct.addAll 7]).wires ≤ 1 :=
  ⟨by decide, by decide⟩

/-- Claim C8 (amended): under the ordering the source itself
documents ("Sources must be added before event listeners"), the
forwarding subscription is installed at most once per source and
event name: when every source registration precedes every listener
attachment and a given source is registered at most once, its wire
count for any event name is at most one; and a source registered
exactly once for all-event propagation is wired exactly once for
every listened event name other than `data` and `end`, so one
emission is re-raised exactly once. -/
theorem claim8_wiring_amended :
    (∀ (srcActs : List RAct) (ls : List String) (src : Nat) (e : String),
      srcActs.all isSourceAct = true →
      errRegCount src srcActs + allRegCount src srcActs ≤ 1 →
      wcount src e (runRS rsInit (srcActs ++ ls.map RAct.listen)).wires ≤ 1) ∧
    (∀ (srcActs : List RAct) (ls : List String) (src : Nat) (e : String),
      srcActs.all isSourceAct = true →
      errRegCount src srcActs = 0 →
      allRegCount src srcActs = 1 →
      e ∈ ls → e ≠ "data" → e ≠ "end" →
      wcount src e (runRS rsInit (srcActs ++ ls.map RAct.listen)).wires = 1) := by
  constructor
  · intro srcActs ls src e hall hreg
    rw [runRS_append]
    obtain ⟨p1, p2, p3, p4⟩ := runRS_sources src srcActs rsInit hall rfl
    have hinv : wcount src e (runRS rsInit srcActs).wires =
        (if e ∈ (runRS rsInit srcActs).propagatedEvents
         then relCount (runRS rsInit srcActs) src e else 0) := by
      rw [p2, p1]
      simp [rsInit, wcount]
    obtain ⟨q1, q2⟩ := runRS_listen src e ls (runRS rsInit srcActs) hinv
    rw [q1]
    have hrel : relCount (runRS rsInit srcActs) src e ≤ 1 := by
      unfold relCount
      rw [p3, p4]
      simp only [rsInit, ncount]
      split_ifs <;> omega
    split_ifs <;> omega
  · intro srcActs ls src e hall hereg hareg hmem hd he
    rw [runRS_append]
    obtain ⟨p1, p2, p3, p4⟩ := runRS_sources src srcActs rsInit hall rfl
    have hinv : wcount src e (runRS rsInit srcActs).wires =
        (if e ∈ (runRS rsInit srcActs).propagatedEvents
         then relCount (runRS rsInit srcActs) src e else 0) := by
      rw [p2, p1]
      simp [rsInit, wcount]
    obtain ⟨q1, q2⟩ := runRS_listen src e ls (runRS rsInit srcActs) hinv
    rw [q1]
    have hin : e ∈ (runRS (runRS rsInit srcActs)
        (ls.map RAct.listen)).propagatedEvents := by
      rw [q2]
      exact Or.inr ⟨hmem, by simp [hd, he]⟩
    rw [if_pos hin]
    unfold relCount
    rw [p3, p4]
    simp only [rsInit, ncount, hereg, hareg]
    split_ifs <;> omega

/-- Claim C8 witness: one source registered before one `close`
listener is wired exactly once, hence also at most once. -/
theorem claim8_witness :
    (([RAct.addAll 3] : List RAct).all isSourceAct = true ∧
      errRegCount 3 [RAct.addAll 3] + allRegCount 3 [RAct.addAll 3] ≤ 1 ∧
      wcount 3 "close" (runRS rsInit ([RAct.addAll 3] ++
        (["close"] : List String).map RAct.listen)).wires ≤ 1) ∧
    (errRegCount 3 [RAct.addAll 3] = 0 ∧
      allRegCount 3 [RAct.addAll 3] = 1 ∧
      "close" ∈ (["close"] : List String) ∧
      wcount 3 "close" (runRS rsInit ([RAct.addAll 3] ++
        (["close"] : List String).map RAct.listen)).wires = 1) :=
  ⟨⟨by decide, by decide,
     claim8_wiring_amended.1 [RAct.addAll 3] ["close"] 3 "close"
       (by decide) (by decide)⟩,
   ⟨by decide, by decide, by decide,
     claim8_wiring_amended.2 [RAct.addAll 3] ["close"] 3 "close"
       (by decide) (by decide) (by decide) (by decide)
       (by decide) (by decide)⟩⟩

/-- Claim C9: registering a source for error propagation wires its
`error` event at once exactly when an `error` listener was already
attached at registration time (one new wire); otherwise the
registration installs no wire but records the source, and the first
`error` listener to attach retroactively wires every recorded source;
in particular attaching an `error` listener before any source is
registered still propagates errors from sources registered
afterwards; and with no `error` listener ever attached, no error is
ever re-raised. -/
theorem claim9_error_propagation :
    (∀ (s : RS) (src : Nat), "error" ∈ s.propagatedEvents →
      wcount src "error" (propagateErrorsFrom s src).wires
        = wcount src "error" s.wires + 1) ∧
    (∀ (s : RS) (src : Nat), "error" ∉ s.propagatedEvents →
      (propagateErrorsFrom s src).wires = s.wires ∧
      (propagateErrorsFrom s src).errorSources = s.errorSources ++ [src]) ∧
    (∀ (s : RS) (src : Nat), "error" ∉ s.propagatedEvents →
      wcount src "error" (propagateEvent s "error").wires
        = wcount src "error" s.wires + ncount src s.errorSources
            + ncount src s.allEventSources) ∧
    (∀ src : Nat, wcount src "error"
        (propagateErrorsFrom (propagateEvent rsInit "error") src).wires = 1) ∧
    (∀ (acts : List RAct) (src : Nat),
      acts.all (fun a => !(a = RAct.listen "error")) = true →
      wcount src "error" (runRS rsInit acts).wires = 0) := by
  refine ⟨?_, ?_, ?_, ?_, ?_⟩
  · intro s src h
    simp [propagateErrorsFrom, h, wcount_append, wcount]
  · intro s src h
    simp [propagateErrorsFrom, h]
  · intro s src h
    rw [propagateEvent]
    rw [if_neg (by decide), if_neg h]
    show wcount src "error" (s.wires ++
      (if "error" = "error" then s.errorSources ++ s.allEventSources
       else s.allEventSources).map (fun n => (n, "error"))) = _
    rw [wcount_append, if_pos rfl, List.map_append, wcount_append,
      wcount_map_same, wcount_map_same]
    omega
  · intro src
    have h1 : "error" ∈ (propagateEvent rsInit "error").propagatedEvents := by
      simp [propagateEvent, rsInit]
    simp [propagateErrorsFrom, h1, propagateEvent, rsInit, wcount_append, wcount]
  · intro acts src hall
    exact (runRS_no_error_wire src acts rsInit hall (by simp [rsInit]) rfl).2

/-- Claim C9 witness: the immediate wire with a listener already
attached, the deferred registration, the retroactive wiring, the
listener-before-sources scenario, and the no-listener case, each at
a concrete aggregator state. -/
theorem claim9_witness :
    ("error" ∈ (⟨[], [], ["error", "error"], []⟩ : RS).propagatedEvents ∧
      wcount 2 "error"
          (propagateErrorsFrom ⟨[], [], ["error", "error"], []⟩ 2).wires
        = wcount 2 "error" ([] : List (Nat × String)) + 1) ∧
    ("error" ∉ rsInit.propagatedEvents ∧
      (propagateErrorsFrom rsInit 2).wires = rsInit.wires ∧
      (propagateErrorsFrom rsInit 2).errorSources
        = rsInit.errorSources ++ [2]) ∧
    ("error" ∉ (⟨[2], [], [], []⟩ : RS).propagatedEvents ∧
      wcount 2 "error" (propagateEvent (⟨[2], [], [], []⟩ : RS) "error").wires
        = wcount 2 "error" ([] : List (Nat × String)) + ncount 2 [2]
            + ncount 2 ([] : List Nat)) ∧
    wcount 2 "error"
        (propagateErrorsFrom (propagateEvent rsInit "error") 2).wires = 1 ∧
    (([RAct.addErr 2] : List RAct).all
        (fun a => !(a = RAct.listen "error")) = true ∧
      wcount 2 "error" (runRS rsInit [RAct.addErr 2]).wires = 0) :=
  ⟨⟨by decide, claim9_error_propagation.1 ⟨[], [], ["error", "error"], []⟩ 2
      (by decide)⟩,
   ⟨by decide, claim9_error_propagation.2.1 rsInit 2 (by decide)⟩,
   ⟨by decide, claim9_error_propagation.2.2.1 ⟨[2], [], [], []⟩ 2 (by decide)⟩,
   claim9_error_propagation.2.2.2.1 2,
   ⟨by decide, claim9_error_propagation.2.2.2.2 [RAct.addErr 2] 2 (by decide)⟩⟩

end ResultAgg
